import Mathlib

/-!
Verification of the Bernstein-Vazirani circuit builder
(`qiskit_tutorial/bernstein_bazarani.py`, function `bernstein_vazirani_circuit`).

The builder is a pure function from a secret bit string and two boolean
flags to a circuit description.  We embed it shallowly: a Python string is a
`List Char`, a Qiskit `QuantumCircuit` is a `Circuit` record holding the
declared qubit count, the declared classical-bit count, and the ordered list
of gate operations appended to it.  Each Qiskit call appends operations:
`circuit.x(q)` appends one `Op.x q`, `circuit.h(range(m))` appends `Op.h i`
for each `i` in `0..m-1`, `circuit.cx(c, t)` appends `Op.cx c t`,
`circuit.barrier()` appends `Op.barrier`, and
`circuit.measure(range(n), range(n))` appends `Op.measure i i` for each
`i` in `0..n-1`.
-/

/-- One gate operation of a circuit description. -/
inductive Op where
  | x (q : Nat)
  | h (q : Nat)
  | cx (control target : Nat)
  | barrier
  | measure (q c : Nat)
deriving DecidableEq, Repr

/-- A circuit description: declared qubit lines, declared classical bits,
and the ordered list of operations. -/
@[ext]
structure Circuit where
  numQubits : Nat
  numClbits : Nat
  ops : List Op
deriving DecidableEq, Repr

/-- Shallow embedding of `bernstein_vazirani_circuit(secret_str, use_ancilla,
use_paired_qubits)` from `bernstein_bazarani.py`.  The oracle loop
`for i, bit in enumerate(reversed(secret_str))` is `secret_str.reverse.enum`. -/
def bernstein_vazirani_circuit (secret_str : List Char)
    (use_ancilla : Bool) (use_paired_qubits : Bool) : Circuit :=
  let n := secret_str.length
  let num_qubits := if use_ancilla then n + 1 else if use_paired_qubits then 2 * n else n
  let init : List Op :=
    if use_ancilla then Op.x n :: (List.range (n + 1)).map Op.h
    else (List.range n).map Op.h
  let oracle : List Op :=
    (secret_str.reverse.enum).filterMap fun ib =>
      if ib.2 = '1' then
        some (if use_ancilla then Op.cx ib.1 n
              else if use_paired_qubits then Op.cx ib.1 (n + ib.1)
              else Op.x ib.1)
      else none
  { numQubits := num_qubits
    numClbits := n
    ops := init ++ [Op.barrier] ++ oracle ++ [Op.barrier]
            ++ (List.range n).map Op.h
            ++ (List.range n).map (fun i => Op.measure i i) }

/-- The (control, target) pairs of the controlled-flip operations of an
operation list, in order. -/
def cxList (ops : List Op) : List (Nat × Nat) :=
  ops.filterMap fun o =>
    match o with
    | Op.cx c t => some (c, t)
    | _ => none

/-- The lines of the unconditional-flip operations of an operation list,
in order. -/
def xList (ops : List Op) : List Nat :=
  ops.filterMap fun o =>
    match o with
    | Op.x q => some q
    | _ => none

/-- The (qubit, classical bit) pairs of the measurement operations of an
operation list, in order. -/
def measureList (ops : List Op) : List (Nat × Nat) :=
  ops.filterMap fun o =>
    match o with
    | Op.measure q c => some (q, c)
    | _ => none

/-- Number of one bits of a secret string. -/
def popcount (s : List Char) : Nat :=
  s.countP (fun c => c = '1')

/-- The positions i in `0..n-1` whose bit of the secret, read right to
left, is a one bit, in ascending order. -/
def oneIndices (s : List Char) : List Nat :=
  (List.range s.length).filter (fun i => s.reverse.getD i '0' = '1')

/-- A secret string made only of the characters '0' and '1'. -/
def isBinaryStr (s : List Char) : Prop :=
  ∀ c ∈ s, c = '0' ∨ c = '1'

instance (s : List Char) : Decidable (isBinaryStr s) :=
  List.decidableBAll _ s

/-- Conclusion of claim C1: in ancilla mode the controlled flips are exactly
one per one bit of the secret, each targeting the ancilla line, with control
line i driven by bit i of the secret read right to left. -/
def AncillaOracleOk (s : List Char) : Prop :=
  cxList (bernstein_vazirani_circuit s true false).ops
      = (oneIndices s).map (fun i => (i, s.length))
    ∧ (cxList (bernstein_vazirani_circuit s true false).ops).length = popcount s
    ∧ (∀ ct ∈ cxList (bernstein_vazirani_circuit s true false).ops, ct.2 = s.length)
    ∧ (∀ i : Nat, (i, s.length) ∈ cxList (bernstein_vazirani_circuit s true false).ops
        ↔ i < s.length ∧ s.getD (s.length - 1 - i) '0' = '1')
    ∧ (popcount s = 0 → cxList (bernstein_vazirani_circuit s true false).ops = [])

/-- Conclusion of claim C2: declared qubit lines per mode (n + 1 with the
ancilla flag, 2n in paired mode, n in plain mode) and n classical bits in
every mode. -/
def LineCountsOk (s : List Char) : Prop :=
  (∀ b, (bernstein_vazirani_circuit s true b).numQubits = s.length + 1)
    ∧ (bernstein_vazirani_circuit s false true).numQubits = 2 * s.length
    ∧ (bernstein_vazirani_circuit s false false).numQubits = s.length
    ∧ (∀ a b, (bernstein_vazirani_circuit s a b).numClbits = s.length)

/-- Conclusion of claim C4: in paired mode every one bit i of the secret
yields exactly one controlled flip from line i onto line n + i, and nothing
else yields a controlled flip. -/
def PairedOracleOk (s : List Char) : Prop :=
  cxList (bernstein_vazirani_circuit s false true).ops
      = (oneIndices s).map (fun i => (i, s.length + i))
    ∧ (cxList (bernstein_vazirani_circuit s false true).ops).Nodup
    ∧ (∀ i ∈ oneIndices s,
        (i, s.length + i) ∈ cxList (bernstein_vazirani_circuit s false true).ops)
    ∧ (∀ c t, (c, t) ∈ cxList (bernstein_vazirani_circuit s false true).ops
        ↔ c < s.length ∧ s.getD (s.length - 1 - c) '0' = '1' ∧ t = s.length + c)

/-- Conclusion of claim C5: in every mode the operation list is exactly
initialization, barrier, the oracle operations in ascending position order,
barrier, the input-line Hadamard transforms, then the measurements. -/
def ConstructionOrderOk (s : List Char) : Prop :=
  (∀ b, (bernstein_vazirani_circuit s true b).ops
      = (Op.x s.length :: (List.range (s.length + 1)).map Op.h)
        ++ [Op.barrier]
        ++ (oneIndices s).map (fun i => Op.cx i s.length)
        ++ [Op.barrier]
        ++ (List.range s.length).map Op.h
        ++ (List.range s.length).map (fun i => Op.measure i i))
    ∧ ((bernstein_vazirani_circuit s false true).ops
      = (List.range s.length).map Op.h
        ++ [Op.barrier]
        ++ (oneIndices s).map (fun i => Op.cx i (s.length + i))
        ++ [Op.barrier]
        ++ (List.range s.length).map Op.h
        ++ (List.range s.length).map (fun i => Op.measure i i))
    ∧ ((bernstein_vazirani_circuit s false false).ops
      = (List.range s.length).map Op.h
        ++ [Op.barrier]
        ++ (oneIndices s).map Op.x
        ++ [Op.barrier]
        ++ (List.range s.length).map Op.h
        ++ (List.range s.length).map (fun i => Op.measure i i))
    ∧ List.Pairwise (fun i j => i < j) (oneIndices s)

/-- Conclusion of claim C6: in every mode the measurements are exactly qubit
i into classical bit i for i in 0..n-1, and no other line is measured. -/
def MeasureWiringOk (s : List Char) : Prop :=
  ∀ a b,
    measureList (bernstein_vazirani_circuit s a b).ops
        = (List.range s.length).map (fun i => (i, i))
      ∧ (∀ q c, (q, c) ∈ measureList (bernstein_vazirani_circuit s a b).ops
          ↔ q < s.length ∧ c = q)

/-- Conclusion of claim C7: in plain mode there is no controlled flip at
all, and the unconditional flips are exactly on the one-bit positions of the
secret read right to left. -/
def PlainOracleOk (s : List Char) : Prop :=
  cxList (bernstein_vazirani_circuit s false false).ops = []
    ∧ xList (bernstein_vazirani_circuit s false false).ops = oneIndices s
    ∧ (∀ i, i ∈ xList (bernstein_vazirani_circuit s false false).ops
        ↔ i < s.length ∧ s.getD (s.length - 1 - i) '0' = '1')

lemma filterMap_ite_enumFrom {α : Type} (P : Char → Prop) [DecidablePred P] (g : Nat → α) :
    ∀ (l : List Char) (k : Nat),
      (List.enumFrom k l).filterMap (fun ib => if P ib.2 then some (g ib.1) else none)
        = ((List.range l.length).filter fun i => decide (P (l.getD i '0'))).map
            fun i => g (i + k) := by
  intro l
  induction l with
  | nil => intro k; rfl
  | cons c t ih =>
    intro k
    show List.filterMap _ ((k, c) :: List.enumFrom (k + 1) t) = _
    rw [List.filterMap_cons]
    by_cases hc : P c <;>
      simp [hc, ih (k + 1), List.range_succ_eq_map, List.filter_cons, List.filter_map,
        List.map_map, Function.comp_def, List.getElem?_cons_succ, Nat.succ_eq_add_one,
        Nat.add_right_comm, Nat.add_assoc]

lemma filterMap_ite_enum {α : Type} (P : Char → Prop) [DecidablePred P] (g : Nat → α)
    (l : List Char) :
    l.enum.filterMap (fun ib => if P ib.2 then some (g ib.1) else none)
      = ((List.range l.length).filter fun i => decide (P (l.getD i '0'))).map g := by
  have h := filterMap_ite_enumFrom P g l 0
  simpa using h

lemma filterMap_const_none {α β : Type} (l : List α) :
    l.filterMap (fun _ => (none : Option β)) = [] := by
  induction l <;> simp_all [List.filterMap_cons]

lemma filterMap_some_comp {α β : Type} (f : α → β) (l : List α) :
    l.filterMap (fun a => some (f a)) = l.map f := by
  induction l <;> simp_all [List.filterMap_cons]

lemma ops_ancilla (s : List Char) (b : Bool) :
    (bernstein_vazirani_circuit s true b).ops
      = (Op.x s.length :: (List.range (s.length + 1)).map Op.h)
        ++ [Op.barrier]
        ++ (oneIndices s).map (fun i => Op.cx i s.length)
        ++ [Op.barrier]
        ++ (List.range s.length).map Op.h
        ++ (List.range s.length).map (fun i => Op.measure i i) := by
  have h := filterMap_ite_enum (fun c => c = '1') (fun i => Op.cx i s.length) s.reverse
  simp only [List.length_reverse] at h
  simp [bernstein_vazirani_circuit, oneIndices, h]

lemma ops_paired (s : List Char) :
    (bernstein_vazirani_circuit s false true).ops
      = (List.range s.length).map Op.h
        ++ [Op.barrier]
        ++ (oneIndices s).map (fun i => Op.cx i (s.length + i))
        ++ [Op.barrier]
        ++ (List.range s.length).map Op.h
        ++ (List.range s.length).map (fun i => Op.measure i i) := by
  have h := filterMap_ite_enum (fun c => c = '1') (fun i => Op.cx i (s.length + i)) s.reverse
  simp only [List.length_reverse] at h
  simp [bernstein_vazirani_circuit, oneIndices, h]

lemma ops_plain (s : List Char) :
    (bernstein_vazirani_circuit s false false).ops
      = (List.range s.length).map Op.h
        ++ [Op.barrier]
        ++ (oneIndices s).map Op.x
        ++ [Op.barrier]
        ++ (List.range s.length).map Op.h
        ++ (List.range s.length).map (fun i => Op.measure i i) := by
  have h := filterMap_ite_enum (fun c => c = '1') (fun i => Op.x i) s.reverse
  simp only [List.length_reverse] at h
  simp [bernstein_vazirani_circuit, oneIndices, h]

lemma cxList_ops_ancilla (s : List Char) (b : Bool) :
    cxList (bernstein_vazirani_circuit s true b).ops
      = (oneIndices s).map (fun i => (i, s.length)) := by
  rw [ops_ancilla]
  simp [cxList, List.filterMap_append, List.filterMap_map, Function.comp_def,
    filterMap_const_none, filterMap_some_comp, List.filterMap_cons]

lemma cxList_ops_paired (s : List Char) :
    cxList (bernstein_vazirani_circuit s false true).ops
      = (oneIndices s).map (fun i => (i, s.length + i)) := by
  rw [ops_paired]
  simp [cxList, List.filterMap_append, List.filterMap_map, Function.comp_def,
    filterMap_const_none, filterMap_some_comp, List.filterMap_cons]

lemma cxList_ops_plain (s : List Char) :
    cxList (bernstein_vazirani_circuit s false false).ops = [] := by
  rw [ops_plain]
  simp [cxList, List.filterMap_append, List.filterMap_map, Function.comp_def,
    filterMap_const_none, List.filterMap_cons]

lemma xList_ops_ancilla (s : List Char) (b : Bool) :
    xList (bernstein_vazirani_circuit s true b).ops = [s.length] := by
  rw [ops_ancilla]
  simp [xList, List.filterMap_append, List.filterMap_map, Function.comp_def,
    filterMap_const_none, List.filterMap_cons]

lemma xList_ops_plain (s : List Char) :
    xList (bernstein_vazirani_circuit s false false).ops = oneIndices s := by
  rw [ops_plain]
  simp [xList, List.filterMap_append, List.filterMap_map, Function.comp_def,
    filterMap_const_none, filterMap_some_comp, List.filterMap_cons]

lemma measureList_ops (s : List Char) (a b : Bool) :
    measureList (bernstein_vazirani_circuit s a b).ops
      = (List.range s.length).map (fun i => (i, i)) := by
  cases a
  · cases b
    · rw [ops_plain]
      simp [measureList, List.filterMap_append, List.filterMap_map, Function.comp_def,
        filterMap_const_none, filterMap_some_comp, List.filterMap_cons]
    · rw [ops_paired]
      simp [measureList, List.filterMap_append, List.filterMap_map, Function.comp_def,
        filterMap_const_none, filterMap_some_comp, List.filterMap_cons]
  · rw [ops_ancilla]
    simp [measureList, List.filterMap_append, List.filterMap_map, Function.comp_def,
      filterMap_const_none, filterMap_some_comp, List.filterMap_cons]

lemma countP_range_getD (P : Char → Prop) [DecidablePred P] :
    ∀ l : List Char,
      (List.range l.length).countP (fun i => decide (P (l.getD i '0')))
        = l.countP (fun c => decide (P c)) := by
  intro l
  induction l with
  | nil => rfl
  | cons c t ih =>
    simp only [List.length_cons, List.range_succ_eq_map, List.countP_cons,
      List.countP_map, Function.comp_def, Nat.succ_eq_add_one, List.getD_cons_succ,
      List.getD_cons_zero, ih]

lemma length_oneIndices (s : List Char) : (oneIndices s).length = popcount s := by
  have h := countP_range_getD (fun c => c = '1') s.reverse
  simp only [List.length_reverse, List.countP_reverse] at h
  rw [oneIndices, popcount, ← List.countP_eq_length_filter]
  exact h

lemma getD_reverse (s : List Char) (i : Nat) (h : i < s.length) :
    s.reverse.getD i '0' = s.getD (s.length - 1 - i) '0' := by
  rw [List.getD_eq_getElem s.reverse '0' (by simpa using h),
    List.getD_eq_getElem s '0' (by omega)]
  exact List.getElem_reverse (by simpa using h)

lemma mem_oneIndices (s : List Char) (i : Nat) :
    i ∈ oneIndices s ↔ i < s.length ∧ s.getD (s.length - 1 - i) '0' = '1' := by
  simp only [oneIndices, List.mem_filter, List.mem_range, decide_eq_true_eq]
  constructor
  · rintro ⟨h1, h2⟩
    exact ⟨h1, by rw [← getD_reverse s i h1]; exact h2⟩
  · rintro ⟨h1, h2⟩
    exact ⟨h1, by rw [getD_reverse s i h1]; exact h2⟩

lemma pairwise_oneIndices (s : List Char) : List.Pairwise (· < ·) (oneIndices s) :=
  (List.pairwise_lt_range _).sublist (List.filter_sublist _)

lemma nodup_oneIndices (s : List Char) : (oneIndices s).Nodup :=
  (List.nodup_range _).filter _

lemma oneIndices_map_sanitize (s : List Char) :
    oneIndices (s.map fun c => if c = '1' then '1' else '0') = oneIndices s := by
  unfold oneIndices
  rw [List.length_map, ← List.map_reverse]
  apply List.filter_congr
  intro i hi
  rw [List.mem_range] at hi
  have hi2 : i < s.reverse.length := by simpa using hi
  rw [List.getD_eq_getElem _ '0' (by simpa using hi2), List.getElem_map,
    List.getD_eq_getElem _ '0' hi2]
  by_cases hc : s.reverse[i] = '1' <;> simp [hc]

/-- Claim C1: in ancilla mode, `build(s, ancilla=True)` emits exactly
`popcount s` controlled flips, each targeting the ancilla line `n`, with the
control lines exactly the positions i whose bit of the secret, read right to
left (character n - 1 - i from the left), is '1' ; zero bits emit nothing,
and an all-zero secret emits no controlled flip at all. -/
theorem bv_C1_ancilla_oracle (s : List Char) (_hne : s ≠ []) (_hbin : isBinaryStr s) :
    AncillaOracleOk s := by
  refine ⟨cxList_ops_ancilla s false, ?_, ?_, ?_, ?_⟩
  · rw [cxList_ops_ancilla, List.length_map, length_oneIndices]
  · intro ct hct
    rw [cxList_ops_ancilla] at hct
    obtain ⟨i, -, rfl⟩ := List.mem_map.1 hct
    rfl
  · intro i
    rw [cxList_ops_ancilla]
    constructor
    · intro hmem
      obtain ⟨j, hj, hj2⟩ := List.mem_map.1 hmem
      have hji : j = i := congrArg Prod.fst hj2
      subst hji
      exact (mem_oneIndices s j).1 hj
    · intro hi
      exact List.mem_map.2 ⟨i, (mem_oneIndices s i).2 hi, rfl⟩
  · intro h0
    have h1 : (oneIndices s).length = 0 := by rw [length_oneIndices, h0]
    rw [cxList_ops_ancilla, List.length_eq_zero.1 h1]
    rfl

/-- Witness for claim C1 at the secret 101. -/
theorem bv_C1_witness :
    ((['1', '0', '1'] : List Char) ≠ [] ∧ isBinaryStr ['1', '0', '1'])
      ∧ AncillaOracleOk ['1', '0', '1'] :=
  ⟨by decide, bv_C1_ancilla_oracle ['1', '0', '1'] (by decide) (by decide)⟩

/-- Claim C2: declared line and classical-bit counts per mode: n + 1 lines
when the ancilla flag is set, 2n lines in paired mode, n lines in plain
mode, and n classical bits in every mode; in particular the secret 101 with
the ancilla gives 4 lines and 3 classical bits. -/
theorem bv_C2_line_counts (s : List Char) (_hne : s ≠ []) (_hbin : isBinaryStr s) :
    LineCountsOk s
      ∧ (bernstein_vazirani_circuit ['1', '0', '1'] true false).numQubits = 4
      ∧ (bernstein_vazirani_circuit ['1', '0', '1'] true false).numClbits = 3 :=
  ⟨⟨fun _ => rfl, rfl, rfl, fun _ _ => rfl⟩, by decide, by decide⟩

/-- Witness for claim C2 at the secret 101. -/
theorem bv_C2_witness :
    ((['1', '0', '1'] : List Char) ≠ [] ∧ isBinaryStr ['1', '0', '1'])
      ∧ (LineCountsOk ['1', '0', '1']
        ∧ (bernstein_vazirani_circuit ['1', '0', '1'] true false).numQubits = 4
        ∧ (bernstein_vazirani_circuit ['1', '0', '1'] true false).numClbits = 3) :=
  ⟨by decide, bv_C2_line_counts ['1', '0', '1'] (by decide) (by decide)⟩

/-- Claim C3: the paired flag has no effect when the ancilla flag is set:
both flag settings build structurally identical circuit descriptions. -/
theorem bv_C3_mode_precedence (s : List Char) (_hne : s ≠ []) (_hbin : isBinaryStr s) :
    bernstein_vazirani_circuit s true true = bernstein_vazirani_circuit s true false := rfl

/-- Witness for claim C3 at the secret 10. -/
theorem bv_C3_witness :
    ((['1', '0'] : List Char) ≠ [] ∧ isBinaryStr ['1', '0'])
      ∧ bernstein_vazirani_circuit ['1', '0'] true true
          = bernstein_vazirani_circuit ['1', '0'] true false :=
  ⟨by decide, bv_C3_mode_precedence ['1', '0'] (by decide) (by decide)⟩

/-- Claim C4: in paired mode every one-bit position i of the secret yields
exactly one controlled flip from input line i onto its dedicated paired line
n + i and zero bits yield none; in particular the secret 1 gives 2 lines,
1 classical bit, and the single controlled flip from line 0 to line 1. -/
theorem bv_C4_paired_oracle (s : List Char) (_hne : s ≠ []) (_hbin : isBinaryStr s) :
    PairedOracleOk s
      ∧ (bernstein_vazirani_circuit ['1'] false true).numQubits = 2
      ∧ (bernstein_vazirani_circuit ['1'] false true).numClbits = 1
      ∧ cxList (bernstein_vazirani_circuit ['1'] false true).ops = [(0, 1)] := by
  refine ⟨⟨cxList_ops_paired s, ?_, ?_, ?_⟩, by decide, by decide, by decide⟩
  · rw [cxList_ops_paired]
    have hinj : Function.Injective (fun i : Nat => (i, s.length + i)) := by
      intro i j hij
      simpa using congrArg Prod.fst hij
    exact (nodup_oneIndices s).map hinj
  · intro i hi
    rw [cxList_ops_paired]
    exact List.mem_map.2 ⟨i, hi, rfl⟩
  · intro c t
    rw [cxList_ops_paired]
    simp only [List.mem_map, Prod.mk.injEq]
    constructor
    · rintro ⟨j, hj, rfl, rfl⟩
      obtain ⟨h1, h2⟩ := (mem_oneIndices s j).1 hj
      exact ⟨h1, h2, rfl⟩
    · rintro ⟨h1, h2, rfl⟩
      exact ⟨c, (mem_oneIndices s c).2 ⟨h1, h2⟩, rfl, rfl⟩

/-- Witness for claim C4 at the secret 1. -/
theorem bv_C4_witness :
    ((['1'] : List Char) ≠ [] ∧ isBinaryStr ['1'])
      ∧ (PairedOracleOk ['1']
        ∧ (bernstein_vazirani_circuit ['1'] false true).numQubits = 2
        ∧ (bernstein_vazirani_circuit ['1'] false true).numClbits = 1
        ∧ cxList (bernstein_vazirani_circuit ['1'] false true).ops = [(0, 1)]) :=
  ⟨by decide, bv_C4_paired_oracle ['1'] (by decide) (by decide)⟩

/-- Claim C5: in every mode the operation list is exactly initialization
(in ancilla mode the flip of the ancilla line followed by Hadamard on all
n + 1 lines, otherwise Hadamard on the n input lines), a barrier, the
oracle operations for positions 0..n-1 in ascending order, a second
barrier, Hadamard on the input lines again, then the measurements. -/
theorem bv_C5_construction_order (s : List Char) (_hne : s ≠ []) (_hbin : isBinaryStr s) :
    ConstructionOrderOk s :=
  ⟨fun b => ops_ancilla s b, ops_paired s, ops_plain s, pairwise_oneIndices s⟩

/-- Witness for claim C5 at the secret 10. -/
theorem bv_C5_witness :
    ((['1', '0'] : List Char) ≠ [] ∧ isBinaryStr ['1', '0'])
      ∧ ConstructionOrderOk ['1', '0'] :=
  ⟨by decide, bv_C5_construction_order ['1', '0'] (by decide) (by decide)⟩

/-- Claim C6: in every mode exactly the input lines 0..n-1 are measured,
qubit i into classical bit i; no ancilla or paired line is measured. -/
theorem bv_C6_measure_wiring (s : List Char) (_hne : s ≠ []) (_hbin : isBinaryStr s) :
    MeasureWiringOk s := by
  intro a b
  refine ⟨measureList_ops s a b, ?_⟩
  intro q c
  rw [measureList_ops]
  simp only [List.mem_map, List.mem_range]
  constructor
  · rintro ⟨i, hi, h⟩
    obtain ⟨rfl, rfl⟩ := Prod.mk.injEq .. |>.mp h
    exact ⟨hi, rfl⟩
  · rintro ⟨hq, hc⟩
    exact ⟨q, hq, by rw [hc]⟩

/-- Witness for claim C6 at the secret 10. -/
theorem bv_C6_witness :
    ((['1', '0'] : List Char) ≠ [] ∧ isBinaryStr ['1', '0'])
      ∧ MeasureWiringOk ['1', '0'] :=
  ⟨by decide, bv_C6_measure_wiring ['1', '0'] (by decide) (by decide)⟩

/-- Claim C7: in plain mode there is no controlled flip anywhere in the
circuit, and every one-bit position i of the secret read right to left gets
an unconditional flip directly on input line i. -/
theorem bv_C7_plain_oracle (s : List Char) (_hne : s ≠ []) (_hbin : isBinaryStr s) :
    PlainOracleOk s := by
  refine ⟨cxList_ops_plain s, xList_ops_plain s, ?_⟩
  intro i
  rw [xList_ops_plain]
  exact mem_oneIndices s i

/-- Witness for claim C7 at the secret 10. -/
theorem bv_C7_witness :
    ((['1', '0'] : List Char) ≠ [] ∧ isBinaryStr ['1', '0'])
      ∧ PlainOracleOk ['1', '0'] :=
  ⟨by decide, bv_C7_plain_oracle ['1', '0'] (by decide) (by decide)⟩

/-- Claim C8: the builder is deterministic; it is a pure function of the
secret and the two flags, so identical inputs give structurally identical
circuit descriptions. -/
theorem bv_C8_deterministic (s1 s2 : List Char) (a1 a2 b1 b2 : Bool)
    (hs : s1 = s2) (ha : a1 = a2) (hb : b1 = b2) :
    bernstein_vazirani_circuit s1 a1 b1 = bernstein_vazirani_circuit s2 a2 b2 := by
  subst hs ha hb
  rfl

/-- Witness for claim C8 at the secret 10. -/
theorem bv_C8_witness :
    ((['1', '0'] : List Char) = ['1', '0'] ∧ true = true ∧ false = false)
      ∧ bernstein_vazirani_circuit ['1', '0'] true false
          = bernstein_vazirani_circuit ['1', '0'] true false :=
  ⟨⟨rfl, rfl, rfl⟩,
    bv_C8_deterministic ['1', '0'] ['1', '0'] true true false false rfl rfl rfl⟩

/-- Claim C9: the builder is total on valid inputs: for every non-empty
binary secret and any flags it returns a circuit description (the embedding
is a total function with no error branch), with the declared classical bits
and a non-empty operation list. -/
theorem bv_C9_total (s : List Char) (_hne : s ≠ []) (_hbin : isBinaryStr s) (a b : Bool) :
    ∃ c : Circuit, bernstein_vazirani_circuit s a b = c
      ∧ c.numClbits = s.length ∧ c.ops ≠ [] := by
  refine ⟨bernstein_vazirani_circuit s a b, rfl, rfl, ?_⟩
  cases a
  · cases b
    · rw [ops_plain]
      simp
    · rw [ops_paired]
      simp
  · rw [ops_ancilla s b]
    simp

/-- Witness for claim C9 at the secret 0 in plain mode. -/
theorem bv_C9_witness :
    ((['0'] : List Char) ≠ [] ∧ isBinaryStr ['0'])
      ∧ ∃ c : Circuit, bernstein_vazirani_circuit ['0'] false false = c
          ∧ c.numClbits = (['0'] : List Char).length ∧ c.ops ≠ [] :=
  ⟨by decide, bv_C9_total ['0'] (by decide) (by decide) false false⟩

/-- Claim C10: malformed secrets are silently accepted: for every string,
every character other than '1' contributes no oracle operation, so the
built circuit equals the one built from the secret with every such
character replaced by '0' . -/
theorem bv_C10_nonbinary_sanitized (s : List Char) (a b : Bool) :
    bernstein_vazirani_circuit s a b
      = bernstein_vazirani_circuit (s.map fun c => if c = '1' then '1' else '0') a b := by
  have hlen : (s.map fun c => if c = '1' then '1' else '0').length = s.length := by
    simp
  have hone := oneIndices_map_sanitize s
  refine Circuit.ext ?_ ?_ ?_
  · cases a <;> cases b <;> simp [bernstein_vazirani_circuit, hlen]
  · simp [bernstein_vazirani_circuit, hlen]
  · cases a
    · cases b
      · rw [ops_plain s, ops_plain (s.map fun c => if c = '1' then '1' else '0'), hlen, hone]
      · rw [ops_paired s, ops_paired (s.map fun c => if c = '1' then '1' else '0'), hlen, hone]
    · rw [ops_ancilla s b, ops_ancilla (s.map fun c => if c = '1' then '1' else '0') b,
        hlen, hone]
